import Mathlib

/-!
Verification of the checkpoint store in `assignment3/utils.py`.

The store works on a single flat directory.  We model the directory as an
association list from filenames to file contents.  A filename is a `List Char`
(Python filenames are arbitrary strings, so names may contain whitespace or
even a newline character).  A file is either an opaque serialized state
(`torch.save` output, modelled as a value of an arbitrary type `α`) or a text
file (the `latest_checkpoint` manifest, written with `"\n".join(...)`).

The three operations `save_checkpoint`, `get_previous_checkpoints` and
`load_best_checkpoint` are translated clause by clause from the source.
Python's text handling is modelled by explicit functions on `List Char`:
`open(...)` in default text mode uses universal newlines, so reading first
translates every `"\r\n"` and lone `"\r"` into `"\n"`; `fp.readlines()`
then splits after each `"\n"`; `str.strip()` removes Python's full Unicode
whitespace set from both ends; `"\n".join` concatenates with `"\n"`.
-/

namespace CheckpointStore

/-- A filename inside the checkpoint directory, as a sequence of characters. -/
abbrev Name := List Char

/-- Contents of a file in the checkpoint directory: either an opaque
serialized state dictionary (written by `torch.save`), or plain text
(the manifest written via `fp.write`). -/
inductive File (α : Type) where
  | blob (st : α)
  | text (s : List Char)
deriving DecidableEq

/-- A directory: finitely many named files.  Lookup takes the first entry
with the given name; the write operation keeps names unique. -/
abbrev Dir (α : Type) := List (Name × File α)

/-- Look a file up by name. -/
def fsLookup {α : Type} : Dir α → Name → Option (File α)
  | [], _ => none
  | (m, f) :: d, n => if m = n then some f else fsLookup d n

/-- `pathlib.Path.exists` for a name inside the directory. -/
def fsExists {α : Type} (d : Dir α) (n : Name) : Bool :=
  (fsLookup d n).isSome

/-- `pathlib.Path.unlink`: remove the named file. -/
def fsUnlink {α : Type} : Dir α → Name → Dir α
  | [], _ => []
  | (m, f) :: d, n => if m = n then fsUnlink d n else (m, f) :: fsUnlink d n

/-- Writing a file (create or overwrite). -/
def fsWrite {α : Type} (d : Dir α) (n : Name) (f : File α) : Dir α :=
  (n, f) :: fsUnlink d n

/-- The fixed manifest filename, `"latest_checkpoint"` in the source. -/
def latestCheckpoint : Name := "latest_checkpoint".toList

/-- The fixed best-marker filename, `"best.ckpt"` in the source. -/
def bestName : Name := "best.ckpt".toList

/-- Characters removed by Python's no-argument `str.strip()`: the code
points `c` with `chr(c).isspace()` true, i.e. `U+0009`-`U+000D`,
`U+001C`-`U+001F`, space, `U+0085` (NEL), `U+00A0` (NBSP), `U+1680`,
`U+2000`-`U+200A`, `U+2028`, `U+2029`, `U+202F`, `U+205F` and `U+3000`. -/
def pySpace (c : Char) : Bool :=
  (0x09 ≤ c.toNat && c.toNat ≤ 0x0d) || (0x1c ≤ c.toNat && c.toNat ≤ 0x1f) ||
  c.toNat = 0x20 || c.toNat = 0x85 || c.toNat = 0xa0 || c.toNat = 0x1680 ||
  (0x2000 ≤ c.toNat && c.toNat ≤ 0x200a) || c.toNat = 0x2028 ||
  c.toNat = 0x2029 || c.toNat = 0x202f || c.toNat = 0x205f ||
  c.toNat = 0x3000

/-- Python's `str.strip()`: drop leading and trailing whitespace. -/
def strip (s : List Char) : List Char :=
  ((s.dropWhile pySpace).reverse.dropWhile pySpace).reverse

/-- The universal-newlines translation performed by `open(...)` in default
text mode when reading: every `"\r\n"` pair and every lone `"\r"` becomes
`"\n"`; all other characters pass through. -/
def translateNewlines : List Char → List Char
  | [] => []
  | [c] => if c = '\r' then ['\n'] else [c]
  | c :: c' :: rest =>
      if c = '\r' then
        if c' = '\n' then '\n' :: translateNewlines rest
        else '\n' :: translateNewlines (c' :: rest)
      else c :: translateNewlines (c' :: rest)

/-- Splitting a (newline-translated) character sequence at every `'\n'`.
`splitNl [] = [[]]`, matching `"".split("\n") == [""]`. -/
def splitNl : List Char → List (List Char)
  | [] => [[]]
  | c :: cs =>
      if c = '\n' then [] :: splitNl cs
      else
        match splitNl cs with
        | [] => [[c]]
        | l :: ls => (c :: l) :: ls

/-- Python's `"\n".join(...)` on a list of names. -/
def joinNl : List Name → List Char
  | [] => []
  | [l] => l
  | l :: l' :: ls => l ++ '\n' :: joinNl (l' :: ls)

/-- `fp.readlines()` followed by `[_.strip() for _ in ckpt_list]` (lines
70-75 of `utils.py`).  The text layer first applies the universal-newlines
translation; `readlines` then splits after each `'\n'`, and a trailing
newline produces no extra empty line, hence the final empty chunk produced
by `splitNl` is dropped; every line is then stripped. -/
def readStrippedLines (s : List Char) : List Name :=
  (if (splitNl (translateNewlines s)).getLast? = some [] then
    (splitNl (translateNewlines s)).dropLast
  else splitNl (translateNewlines s)).map strip

/-- Errors the Python code can raise in the modelled fragment:
`AssertionError` from `assert directory.is_dir()`, and a decoding error
from reading a binary blob as text (or `torch.load` on a text file). -/
inductive CkptError where
  | assertionFailed
  | decodeError
deriving DecidableEq

/-- `get_previous_checkpoints(directory)` (lines 69-75 of `utils.py`).
The argument is `none` when the path is not a directory (`assert
directory.is_dir()` fails), otherwise the directory contents.  The function
touches the manifest file (creating an empty one if absent), reads it,
and returns the stripped lines together with the possibly-updated
directory. -/
def get_previous_checkpoints {α : Type} (dir? : Option (Dir α)) :
    Except CkptError (List Name × Dir α) :=
  match dir? with
  | none => .error .assertionFailed
  | some d =>
      let d' := if fsExists d latestCheckpoint then d
                else fsWrite d latestCheckpoint (.text [])
      match fsLookup d' latestCheckpoint with
      | some (.text s) => .ok (readStrippedLines s, d')
      | _ => .error .decodeError

/-- One step of the pruning loop body (lines 61-63 of `utils.py`):
`if path.exists(): path.unlink()`. -/
def deleteIfExists {α : Type} (d : Dir α) (n : Name) : Dir α :=
  if fsExists d n then fsUnlink d n else d

/-- The pruning loop `for ckpt in previous_checkpoints[max_keep:]` over a
given tail of the manifest. -/
def pruneTail {α : Type} (d : Dir α) (t : List Name) : Dir α :=
  t.foldl deleteIfExists d

/-- Lines 57-58 of `utils.py`:
`if filepath.name not in previous_checkpoints: previous_checkpoints =
[filepath.name] + previous_checkpoints`. -/
def updatedManifest (fname : Name) (prev : List Name) : List Name :=
  if fname ∈ prev then prev else fname :: prev

/-- Lines 53-55 of `utils.py`: `torch.save(state_dict, filepath)` and, when
`is_best`, `torch.save(state_dict, filepath.parent.joinpath("best.ckpt"))`. -/
def writeCheckpointFiles {α : Type} (st : α) (fname : Name) (is_best : Bool)
    (d : Dir α) : Dir α :=
  let d1 := fsWrite d fname (.blob st)
  if is_best then fsWrite d1 bestName (.blob st) else d1

/-- Lines 59-63 of `utils.py`: when the manifest exceeds `max_keep`, delete
the files named in the tail beyond the first `max_keep` entries. -/
def pruneOld {α : Type} (max_keep : Nat) (ckpts : List Name) (d : Dir α) :
    Dir α :=
  if max_keep < ckpts.length then pruneTail d (ckpts.drop max_keep) else d

/-- `save_checkpoint(state_dict, filepath, is_best, max_keep)` (lines 44-66
of `utils.py`).  The directory `d` is the contents of `filepath.parent`
(`mkdir(exist_ok=True, parents=True)` guarantees it exists); `fname` is
`filepath.name`.  Steps, in source order: write the state file, optionally
write `best.ckpt`, read the manifest, prepend the filename unless already
present, delete files beyond the first `max_keep` manifest entries, and
rewrite the manifest with the first `max_keep` entries joined by
newlines.  `max_keep` is modelled as a natural number: for every
non-negative `max_keep`, Python's `l[max_keep:]` and `l[:max_keep]` agree
with `List.drop` and `List.take` (the spec leaves `max_keep <= 0`
unspecified and every claim assumes it positive). -/
def save_checkpoint {α : Type} (st : α) (fname : Name) (is_best : Bool)
    (max_keep : Nat) (d : Dir α) : Except CkptError (Dir α) :=
  match get_previous_checkpoints (some (writeCheckpointFiles st fname is_best d)) with
  | .error e => .error e
  | .ok (prev, d3) =>
      let prev2 := updatedManifest fname prev
      .ok (fsWrite (pruneOld max_keep prev2 d3) latestCheckpoint
            (.text (joinNl (prev2.take max_keep))))

/-- `load_best_checkpoint(directory)` (lines 78-82 of `utils.py`): return
`None` when `best.ckpt` is not a file, otherwise `torch.load` it
(loading a text file as a serialized state fails). -/
def load_best_checkpoint {α : Type} (d : Dir α) : Except CkptError (Option α) :=
  match fsLookup d bestName with
  | none => .ok none
  | some (.blob st) => .ok (some st)
  | some (.text _) => .error .decodeError

/-- The manifest entries as the store itself would read them back:
the stripped lines of the `latest_checkpoint` text file. -/
def manifestNames {α : Type} (d : Dir α) : Option (List Name) :=
  match fsLookup d latestCheckpoint with
  | some (.text s) => some (readStrippedLines s)
  | _ => none

/-- Extract the resulting directory of a successful operation. -/
def okDir {α : Type} : Except CkptError (Dir α) → Dir α
  | .ok d => d
  | .error _ => []

/-- One `save` call of a sequence: its state, filename and best flag. -/
structure SaveCall (α : Type) where
  st : α
  fname : Name
  best : Bool

/-- Run a sequence of `save_checkpoint` calls with a fixed `max_keep`. -/
def runSaves {α : Type} (k : Nat) : List (SaveCall α) → Dir α → Except CkptError (Dir α)
  | [], d => .ok d
  | c :: cs, d =>
      match save_checkpoint c.st c.fname c.best k d with
      | .error e => .error e
      | .ok d' => runSaves k cs d'

end CheckpointStore

namespace CheckpointStore

/-! ### Basic lemmas about the directory model -/

theorem fsLookup_fsUnlink {α : Type} (d : Dir α) (n m : Name) :
    fsLookup (fsUnlink d n) m = if n = m then none else fsLookup d m := by
  induction d with
  | nil => cases Decidable.em (n = m) with
    | inl h => simp [fsUnlink, fsLookup, h]
    | inr h => simp [fsUnlink, fsLookup, h]
  | cons p rest ih =>
    obtain ⟨a, fl⟩ := p
    by_cases han : a = n
    · subst han
      by_cases ham : a = m
      · subst ham
        simp [fsUnlink, fsLookup, ih]
      · simp [fsUnlink, fsLookup, ham, ih]
    · by_cases ham : a = m
      · subst ham
        have hnm : ¬ n = a := fun h => han h.symm
        simp [fsUnlink, fsLookup, han, hnm, ih]
      · simp [fsUnlink, fsLookup, han, ham, ih]

theorem fsLookup_fsWrite {α : Type} (d : Dir α) (n m : Name) (f : File α) :
    fsLookup (fsWrite d n f) m = if n = m then some f else fsLookup d m := by
  by_cases h : n = m
  · simp [fsWrite, fsLookup, h]
  · simp [fsWrite, fsLookup, h, fsLookup_fsUnlink]

theorem fsLookup_fsWrite_self {α : Type} (d : Dir α) (n : Name) (f : File α) :
    fsLookup (fsWrite d n f) n = some f := by
  simp [fsLookup_fsWrite]

theorem fsLookup_fsWrite_ne {α : Type} (d : Dir α) {n m : Name} (f : File α)
    (h : n ≠ m) : fsLookup (fsWrite d n f) m = fsLookup d m := by
  simp [fsLookup_fsWrite, h]

theorem fsExists_eq_isSome {α : Type} (d : Dir α) (n : Name) :
    fsExists d n = (fsLookup d n).isSome := rfl

theorem fsLookup_deleteIfExists {α : Type} (d : Dir α) (n m : Name) :
    fsLookup (deleteIfExists d n) m = if n = m then none else fsLookup d m := by
  unfold deleteIfExists
  by_cases hex : fsExists d n
  · simp [hex, fsLookup_fsUnlink]
  · by_cases hnm : n = m
    · subst hnm
      have hnone : fsLookup d n = none := by
        cases h : fsLookup d n with
        | none => rfl
        | some f => rw [fsExists_eq_isSome, h] at hex; simp at hex
      simp [hex, hnone]
    · simp [hex, hnm]

theorem fsLookup_pruneTail_of_not_mem {α : Type} (t : List Name) (d : Dir α)
    (n : Name) (h : n ∉ t) : fsLookup (pruneTail d t) n = fsLookup d n := by
  induction t generalizing d with
  | nil => rfl
  | cons c cs ih =>
    have hc : c ≠ n := fun hcn => h (hcn ▸ List.mem_cons_self c cs)
    have hcs : n ∉ cs := fun hm => h (List.mem_cons_of_mem _ hm)
    calc fsLookup (pruneTail (deleteIfExists d c) cs) n
        = fsLookup (deleteIfExists d c) n := ih _ hcs
      _ = fsLookup d n := by simp [fsLookup_deleteIfExists, hc]

theorem fsLookup_pruneTail_of_none {α : Type} (t : List Name) (d : Dir α)
    (n : Name) (h : fsLookup d n = none) : fsLookup (pruneTail d t) n = none := by
  induction t generalizing d with
  | nil => exact h
  | cons c cs ih =>
    refine ih _ ?_
    rw [fsLookup_deleteIfExists]
    by_cases hcn : c = n <;> simp [hcn, h]

theorem fsLookup_pruneTail_of_mem {α : Type} (t : List Name) (d : Dir α)
    (n : Name) (h : n ∈ t) : fsLookup (pruneTail d t) n = none := by
  induction t generalizing d with
  | nil => cases h
  | cons c cs ih =>
    by_cases hcn : n ∈ cs
    · exact ih _ hcn
    · have hc : c = n := by
        rcases List.mem_cons.mp h with h1 | h2
        · exact h1.symm
        · exact absurd h2 hcn
      refine fsLookup_pruneTail_of_none cs _ n ?_
      simp [fsLookup_deleteIfExists, hc]

theorem pruneOld_eq_pruneTail {α : Type} (k : Nat) (l : List Name) (d : Dir α) :
    pruneOld k l d = pruneTail d (l.drop k) := by
  unfold pruneOld
  by_cases h : k < l.length
  · simp [h]
  · have hle : l.length ≤ k := Nat.le_of_not_lt h
    simp [h, List.drop_eq_nil_of_le hle, pruneTail]

end CheckpointStore

namespace CheckpointStore

/-! ### Lemmas about the manifest text format -/

theorem splitNl_ne_nil (s : List Char) : splitNl s ≠ [] := by
  cases s with
  | nil => simp [splitNl]
  | cons c cs =>
    by_cases h : c = '\n'
    · simp [splitNl, h]
    · simp only [splitNl, if_neg h]
      cases hs : splitNl cs with
      | nil => simp
      | cons l ls => simp

theorem splitNl_of_no_newline (s : List Char) (h : '\n' ∉ s) :
    splitNl s = [s] := by
  induction s with
  | nil => rfl
  | cons c cs ih =>
    have hc : ¬ c = '\n' := fun hcn => h (hcn ▸ List.mem_cons_self c cs)
    have hcs : '\n' ∉ cs := fun hm => h (List.mem_cons_of_mem _ hm)
    simp only [splitNl, if_neg hc, ih hcs]

theorem splitNl_append (s t : List Char) (h : '\n' ∉ s) :
    splitNl (s ++ '\n' :: t) = s :: splitNl t := by
  induction s with
  | nil => simp [splitNl]
  | cons c cs ih =>
    have hc : ¬ c = '\n' := fun hcn => h (hcn ▸ List.mem_cons_self c cs)
    have hcs : '\n' ∉ cs := fun hm => h (List.mem_cons_of_mem _ hm)
    simp only [List.cons_append, splitNl, List.append_eq, if_neg hc, ih hcs]

/-- A filename for which the store's text round trip is faithful: nonempty,
contains neither `'\n'` nor `'\r'` (the two characters universal newlines
treats as line breaks), is unchanged by `strip`, and is not the manifest's
own reserved filename.  The filenames arising in ordinary training runs
(`"epoch3.ckpt"`, `"best.ckpt"`, ...) all satisfy this. -/
def GoodName (n : Name) : Prop :=
  n ≠ [] ∧ '\n' ∉ n ∧ '\r' ∉ n ∧ strip n = n ∧ n ≠ latestCheckpoint

instance : DecidablePred GoodName := fun n => by
  unfold GoodName; infer_instance

theorem translateNewlines_cons_of_ne (c : Char) (t : List Char)
    (hc : ¬ c = '\r') :
    translateNewlines (c :: t) = c :: translateNewlines t := by
  cases t with
  | nil => simp [translateNewlines, hc]
  | cons c' rest => simp [translateNewlines, hc]

theorem translateNewlines_of_no_cr (s : List Char) (h : '\r' ∉ s) :
    translateNewlines s = s := by
  induction s with
  | nil => rfl
  | cons c cs ih =>
    have hc : ¬ c = '\r' := fun hcr => h (hcr ▸ List.mem_cons_self c cs)
    have hcs : '\r' ∉ cs := fun hm => h (List.mem_cons_of_mem _ hm)
    rw [translateNewlines_cons_of_ne c cs hc, ih hcs]

theorem translateNewlines_append (l t : List Char) (h : '\r' ∉ l) :
    translateNewlines (l ++ '\n' :: t) = l ++ '\n' :: translateNewlines t := by
  induction l with
  | nil => exact translateNewlines_cons_of_ne '\n' t (by decide)
  | cons c cs ih =>
    have hc : ¬ c = '\r' := fun hcr => h (hcr ▸ List.mem_cons_self c cs)
    have hcs : '\r' ∉ cs := fun hm => h (List.mem_cons_of_mem _ hm)
    rw [List.cons_append, translateNewlines_cons_of_ne c _ hc, ih hcs,
      List.cons_append]

theorem readStrippedLines_nil : readStrippedLines [] = [] := rfl

theorem readStrippedLines_append (l t : List Char) (hl : '\n' ∉ l)
    (hcr : '\r' ∉ l) :
    readStrippedLines (l ++ '\n' :: t) = strip l :: readStrippedLines t := by
  obtain ⟨p, ps, hp⟩ : ∃ p ps, splitNl (translateNewlines t) = p :: ps := by
    cases hps : splitNl (translateNewlines t) with
    | nil => exact absurd hps (splitNl_ne_nil _)
    | cons p ps => exact ⟨p, ps, rfl⟩
  unfold readStrippedLines
  rw [translateNewlines_append l t hcr, splitNl_append l _ hl, hp,
    List.getLast?_cons_cons]
  by_cases hlast : (p :: ps).getLast? = some ([] : List Char)
  · rw [if_pos hlast, if_pos hlast, List.dropLast_cons₂, List.map_cons]
  · rw [if_neg hlast, if_neg hlast, List.map_cons]

theorem readStrippedLines_joinNl (L : List Name)
    (h : ∀ n ∈ L, GoodName n) : readStrippedLines (joinNl L) = L := by
  induction L with
  | nil => rfl
  | cons l rest ih =>
    obtain ⟨hne, hnl, hcr, hstrip, -⟩ := h l (List.mem_cons_self l rest)
    cases rest with
    | nil =>
      show readStrippedLines l = [l]
      unfold readStrippedLines
      rw [translateNewlines_of_no_cr l hcr, splitNl_of_no_newline l hnl]
      have : ¬ ([l].getLast? = some ([] : List Char)) := by
        simpa using fun hl => hne hl
      rw [if_neg this, List.map_cons, List.map_nil, hstrip]
    | cons l' rest' =>
      have hjoin : joinNl (l :: l' :: rest') = l ++ '\n' :: joinNl (l' :: rest') := rfl
      rw [hjoin, readStrippedLines_append l _ hnl hcr, hstrip,
        ih (fun n hn => h n (List.mem_cons_of_mem _ hn))]

end CheckpointStore

namespace CheckpointStore

/-! ### Characterization of `get_previous_checkpoints` and `save_checkpoint` -/

theorem bestName_ne_latestCheckpoint : bestName ≠ latestCheckpoint := by decide

theorem get_previous_checkpoints_of_absent {α : Type} (d : Dir α)
    (h : fsLookup d latestCheckpoint = none) :
    get_previous_checkpoints (some d) =
      .ok ([], fsWrite d latestCheckpoint (.text [])) := by
  have hex : fsExists d latestCheckpoint = false := by
    rw [fsExists_eq_isSome, h]; rfl
  unfold get_previous_checkpoints
  simp only [hex, Bool.false_eq_true, if_false, fsLookup_fsWrite_self]
  rfl

theorem get_previous_checkpoints_of_text {α : Type} (d : Dir α) (s : List Char)
    (h : fsLookup d latestCheckpoint = some (.text s)) :
    get_previous_checkpoints (some d) = .ok (readStrippedLines s, d) := by
  have hex : fsExists d latestCheckpoint = true := by
    rw [fsExists_eq_isSome, h]; rfl
  unfold get_previous_checkpoints
  simp only [hex, if_true, h]

theorem fsLookup_writeCheckpointFiles_of_ne {α : Type} (st : α) (fname : Name)
    (b : Bool) (d : Dir α) (m : Name) (hf : m ≠ fname)
    (hb : b = true → m ≠ bestName) :
    fsLookup (writeCheckpointFiles st fname b d) m = fsLookup d m := by
  unfold writeCheckpointFiles
  cases b with
  | false =>
    simp only [Bool.false_eq_true, if_false]
    exact fsLookup_fsWrite_ne d _ (fun h => hf h.symm)
  | true =>
    simp only [if_true]
    rw [fsLookup_fsWrite_ne _ _ (fun h => (hb rfl) h.symm),
      fsLookup_fsWrite_ne d _ (fun h => hf h.symm)]

theorem fsLookup_writeCheckpointFiles_fname {α : Type} (st : α) (fname : Name)
    (b : Bool) (d : Dir α) :
    fsLookup (writeCheckpointFiles st fname b d) fname = some (.blob st) := by
  unfold writeCheckpointFiles
  cases b with
  | false => simp only [Bool.false_eq_true, if_false, fsLookup_fsWrite_self]
  | true =>
    simp only [if_true]
    by_cases hbf : bestName = fname
    · rw [hbf, fsLookup_fsWrite_self]
    · rw [fsLookup_fsWrite_ne _ _ hbf, fsLookup_fsWrite_self]

theorem fsLookup_writeCheckpointFiles_best {α : Type} (st : α) (fname : Name)
    (d : Dir α) :
    fsLookup (writeCheckpointFiles st fname true d) bestName = some (.blob st) := by
  unfold writeCheckpointFiles
  simp only [if_true, fsLookup_fsWrite_self]

theorem mem_updatedManifest {fname n : Name} {prev : List Name}
    (h : n ∈ updatedManifest fname prev) : n = fname ∨ n ∈ prev := by
  unfold updatedManifest at h
  by_cases hm : fname ∈ prev
  · rw [if_pos hm] at h; exact Or.inr h
  · rw [if_neg hm] at h
    rcases List.mem_cons.mp h with h1 | h2
    · exact Or.inl h1
    · exact Or.inr h2

theorem nodup_updatedManifest {fname : Name} {prev : List Name}
    (h : prev.Nodup) : (updatedManifest fname prev).Nodup := by
  unfold updatedManifest
  by_cases hm : fname ∈ prev
  · rw [if_pos hm]; exact h
  · rw [if_neg hm]; exact List.Nodup.cons hm h

/-- The state of a checkpoint directory as maintained by `save_checkpoint`:
either no manifest yet (and `L = []`) or the manifest file holds exactly the
newline-join of `L`; `L` is bounded by `k`, duplicate-free, all entries are
well-behaved filenames, and every entry's file exists. -/
structure DirInvL {α : Type} (k : Nat) (d : Dir α) (L : List Name) : Prop where
  manifest : fsLookup d latestCheckpoint = none ∧ L = [] ∨
    fsLookup d latestCheckpoint = some (.text (joinNl L))
  len : L.length ≤ k
  nodup : L.Nodup
  good : ∀ n ∈ L, GoodName n
  files : ∀ n ∈ L, fsExists d n = true

/-- Main characterization of one `save_checkpoint` call on a directory whose
manifest (if present) is the join of a list `L` of well-behaved names.  The
call succeeds; afterwards the manifest holds the first `max_keep` entries of
the updated list, every file named in the dropped tail is gone, the saved
file (and, when `is_best`, the best marker) holds the new state, and every
other file is untouched. -/
theorem save_checkpoint_spec {α : Type} (st : α) (f : Name) (b : Bool)
    (k : Nat) (d : Dir α) (L : List Name)
    (hman : fsLookup d latestCheckpoint = none ∧ L = [] ∨
      fsLookup d latestCheckpoint = some (.text (joinNl L)))
    (hgood : ∀ n ∈ L, GoodName n) (hf : GoodName f) :
    ∃ d', save_checkpoint st f b k d = .ok d' ∧
      fsLookup d' latestCheckpoint =
        some (.text (joinNl ((updatedManifest f L).take k))) ∧
      (∀ n ∈ (updatedManifest f L).drop k, fsExists d' n = false) ∧
      (f ∉ (updatedManifest f L).drop k →
        fsLookup d' f = some (.blob st)) ∧
      (b = true → bestName ∉ (updatedManifest f L).drop k →
        fsLookup d' bestName = some (.blob st)) ∧
      (∀ n, n ∉ (updatedManifest f L).drop k → n ≠ f → n ≠ latestCheckpoint →
        (b = true → n ≠ bestName) → fsLookup d' n = fsLookup d n) := by
  have hfne : f ≠ latestCheckpoint := hf.2.2.2.2
  set d2 := writeCheckpointFiles st f b d with hd2
  have hd2latest : fsLookup d2 latestCheckpoint = fsLookup d latestCheckpoint :=
    fsLookup_writeCheckpointFiles_of_ne st f b d _
      (fun h => hfne h.symm) (fun _ h => bestName_ne_latestCheckpoint h.symm)
  -- `get_previous_checkpoints` returns `L` and a directory `d3` that differs
  -- from `d2` at most at the manifest file.
  obtain ⟨d3, hprev, hd3⟩ :
      ∃ d3, get_previous_checkpoints (some d2) = .ok (L, d3) ∧
        ∀ m, m ≠ latestCheckpoint → fsLookup d3 m = fsLookup d2 m := by
    rcases hman with ⟨habs, hL⟩ | htext
    · refine ⟨fsWrite d2 latestCheckpoint (.text []), ?_, ?_⟩
      · rw [get_previous_checkpoints_of_absent d2 (hd2latest.trans habs), hL]
      · intro m hm
        exact fsLookup_fsWrite_ne d2 _ (fun h => hm h.symm)
    · refine ⟨d2, ?_, fun m _ => rfl⟩
      rw [get_previous_checkpoints_of_text d2 _ (hd2latest.trans htext),
        readStrippedLines_joinNl L hgood]
  set prev2 := updatedManifest f L with hprev2
  set tailL := prev2.drop k with htail
  set kept := prev2.take k with hkept
  have hsave : save_checkpoint st f b k d =
      .ok (fsWrite (pruneOld k prev2 d3) latestCheckpoint (.text (joinNl kept))) := by
    unfold save_checkpoint
    rw [← hd2, hprev]
  set d4 := pruneOld k prev2 d3 with hd4
  have hd4eq : d4 = pruneTail d3 tailL := pruneOld_eq_pruneTail k prev2 d3
  set d' := fsWrite d4 latestCheckpoint (.text (joinNl kept)) with hd'
  have hlatest' : fsLookup d' latestCheckpoint = some (.text (joinNl kept)) :=
    fsLookup_fsWrite_self d4 _ _
  have htail_not_latest : ∀ n ∈ tailL, n ≠ latestCheckpoint := by
    intro n hn
    rcases mem_updatedManifest (List.drop_subset k prev2 hn) with h1 | h2
    · exact h1 ▸ hfne
    · exact (hgood n h2).2.2.2.2
  refine ⟨d', hsave, hlatest', ?_, ?_, ?_, ?_⟩
  · -- files named in the dropped tail are gone
    intro n hn
    have hnl : n ≠ latestCheckpoint := htail_not_latest n hn
    rw [fsExists_eq_isSome, hd', fsLookup_fsWrite_ne _ _ (fun h => hnl h.symm),
      hd4eq, fsLookup_pruneTail_of_mem _ _ _ hn]
    rfl
  · -- the saved file holds the new state
    intro hfn
    rw [hd', fsLookup_fsWrite_ne _ _ (fun h => hfne h.symm), hd4eq,
      fsLookup_pruneTail_of_not_mem _ _ _ hfn, hd3 f hfne,
      fsLookup_writeCheckpointFiles_fname]
  · -- with `is_best`, the best marker holds the new state
    intro hb hbn
    subst hb
    rw [hd', fsLookup_fsWrite_ne _ _
        (fun h => bestName_ne_latestCheckpoint h.symm),
      hd4eq, fsLookup_pruneTail_of_not_mem _ _ _ hbn,
      hd3 bestName bestName_ne_latestCheckpoint,
      fsLookup_writeCheckpointFiles_best]
  · -- frame: any other file is untouched
    intro n hn hnf hnl hnb
    rw [hd', fsLookup_fsWrite_ne _ _ (fun h => hnl h.symm), hd4eq,
      fsLookup_pruneTail_of_not_mem _ _ _ hn, hd3 n hnl,
      fsLookup_writeCheckpointFiles_of_ne st f b d n hnf hnb]

end CheckpointStore

namespace CheckpointStore

/-! ### Invariant preservation and sequences of saves -/

theorem good_updatedManifest {f : Name} {L : List Name} (hf : GoodName f)
    (hgood : ∀ n ∈ L, GoodName n) :
    ∀ n ∈ updatedManifest f L, GoodName n := by
  intro n hn
  rcases mem_updatedManifest hn with h1 | h2
  · exact h1 ▸ hf
  · exact hgood n h2

/-- A `save_checkpoint` call on an invariant directory succeeds, preserves
the invariant with the truncated updated manifest, and its effect on the
`best.ckpt` entry is: set to the new state when `is_best` (and `best.ckpt`
does not fall in the pruned tail), untouched when not `is_best` and the
saved filename is neither `best.ckpt` nor pruned. -/
theorem save_checkpoint_inv {α : Type} (st : α) (f : Name) (b : Bool)
    (k : Nat) (d : Dir α) (L : List Name)
    (hL : DirInvL k d L) (hf : GoodName f) :
    ∃ d', save_checkpoint st f b k d = .ok d' ∧
      DirInvL k d' ((updatedManifest f L).take k) ∧
      fsLookup d' latestCheckpoint =
        some (.text (joinNl ((updatedManifest f L).take k))) ∧
      (∀ n, n ∉ (updatedManifest f L).drop k → n ≠ f → n ≠ latestCheckpoint →
        (b = true → n ≠ bestName) → fsLookup d' n = fsLookup d n) ∧
      (b = true → bestName ∉ (updatedManifest f L).drop k →
        fsLookup d' bestName = some (.blob st)) := by
  obtain ⟨d', hsave, hlatest, htail, hfname, hbest, hframe⟩ :=
    save_checkpoint_spec st f b k d L hL.manifest hL.good hf
  have hnodup2 : (updatedManifest f L).Nodup := nodup_updatedManifest hL.nodup
  have hgood2 : ∀ n ∈ updatedManifest f L, GoodName n :=
    good_updatedManifest hf hL.good
  have hdisj : ∀ n ∈ (updatedManifest f L).take k,
      n ∉ (updatedManifest f L).drop k := by
    intro n hn hn'
    exact List.disjoint_take_drop hnodup2 (Nat.le_refl k) hn hn'
  refine ⟨d', hsave, ?_, hlatest, hframe, hbest⟩
  refine ⟨Or.inr hlatest, ?_, ?_, ?_, ?_⟩
  · calc ((updatedManifest f L).take k).length
        = min k (updatedManifest f L).length := List.length_take k _
      _ ≤ k := Nat.min_le_left _ _
  · exact List.Nodup.sublist (List.take_sublist k _) hnodup2
  · exact fun n hn => hgood2 n (List.take_subset k _ hn)
  · -- every kept entry's file exists afterwards
    intro n hn
    have hnmem : n ∈ updatedManifest f L := List.take_subset k _ hn
    have hntail : n ∉ (updatedManifest f L).drop k := hdisj n hn
    rcases mem_updatedManifest hnmem with h1 | h2
    · subst h1
      rw [fsExists_eq_isSome, hfname hntail]; rfl
    · have hgn : GoodName n := hL.good n h2
      by_cases hnf : n = f
      · subst hnf
        rw [fsExists_eq_isSome, hfname hntail]; rfl
      · by_cases hnb : b = true ∧ n = bestName
        · obtain ⟨hb, hnb⟩ := hnb
          subst hnb
          rw [fsExists_eq_isSome, hbest hb hntail]; rfl
        · have hcond : b = true → n ≠ bestName := by
            intro hb hnb'
            exact hnb ⟨hb, hnb'⟩
          rw [fsExists_eq_isSome,
            hframe n hntail hnf hgn.2.2.2.2 hcond, ← fsExists_eq_isSome]
          exact hL.files n h2

/-- Directories reachable from the empty directory by `save_checkpoint`
calls with well-behaved filenames and a fixed `max_keep`. -/
inductive Reachable (α : Type) (k : Nat) : Dir α → Prop where
  | init : Reachable α k []
  | step {d d' : Dir α} {st : α} {f : Name} {b : Bool} :
      Reachable α k d → GoodName f →
      save_checkpoint st f b k d = .ok d' → Reachable α k d'

theorem reachable_dirInvL {α : Type} {k : Nat} {d : Dir α}
    (h : Reachable α k d) : ∃ L, DirInvL k d L := by
  induction h with
  | init =>
    refine ⟨[], Or.inl ⟨rfl, rfl⟩, ?_, List.nodup_nil, ?_, ?_⟩
    · exact Nat.zero_le k
    · intro n hn; cases hn
    · intro n hn; cases hn
  | step hr hgood hsave ih =>
    obtain ⟨L, hL⟩ := ih
    obtain ⟨d'', hsave'', hinv, -, -, -⟩ := save_checkpoint_inv _ _ _ _ _ L hL hgood
    rw [hsave''] at hsave
    exact ⟨_, (Except.ok.inj hsave) ▸ hinv⟩

theorem runSaves_cons_inv {α : Type} {k : Nat} {c : SaveCall α}
    {cs : List (SaveCall α)} {d d' : Dir α}
    (h : runSaves k (c :: cs) d = .ok d') :
    ∃ d₁, save_checkpoint c.st c.fname c.best k d = .ok d₁ ∧
      runSaves k cs d₁ = .ok d' := by
  unfold runSaves at h
  cases hs : save_checkpoint c.st c.fname c.best k d with
  | error e => rw [hs] at h; cases h
  | ok d₁ => rw [hs] at h; exact ⟨d₁, rfl, h⟩

theorem runSaves_append_inv {α : Type} {k : Nat} {cs₁ cs₂ : List (SaveCall α)}
    {d d' : Dir α} (h : runSaves k (cs₁ ++ cs₂) d = .ok d') :
    ∃ dm, runSaves k cs₁ d = .ok dm ∧ runSaves k cs₂ dm = .ok d' := by
  induction cs₁ generalizing d with
  | nil => exact ⟨d, rfl, h⟩
  | cons c cs ih =>
    rw [List.cons_append] at h
    obtain ⟨d₁, hs, hrest⟩ := runSaves_cons_inv h
    obtain ⟨dm, h1, h2⟩ := ih hrest
    refine ⟨dm, ?_, h2⟩
    unfold runSaves
    rw [hs]
    exact h1

/-- Running a list of saves whose filenames are well-behaved and distinct
from `best.ckpt`, starting from an invariant directory whose manifest does
not mention `best.ckpt`: the run succeeds into an invariant directory whose
manifest still does not mention `best.ckpt`, and if no call is flagged best
the `best.ckpt` entry is untouched. -/
theorem runSaves_keep {α : Type} (k : Nat) (cs : List (SaveCall α)) :
    ∀ (d : Dir α) (L : List Name) (d' : Dir α),
      (∀ c ∈ cs, GoodName c.fname ∧ c.fname ≠ bestName) →
      DirInvL k d L → bestName ∉ L →
      runSaves k cs d = .ok d' →
      ∃ L', DirInvL k d' L' ∧ bestName ∉ L' ∧
        ((∀ c ∈ cs, c.best = false) →
          fsLookup d' bestName = fsLookup d bestName) := by
  induction cs with
  | nil =>
    intro d L d' _ hL hbL h
    cases h
    exact ⟨L, hL, hbL, fun _ => rfl⟩
  | cons c cs ih =>
    intro d L d' hgood hL hbL h
    obtain ⟨d₁, hs, hrest⟩ := runSaves_cons_inv h
    obtain ⟨hcg, hcb⟩ := hgood c (List.mem_cons_self c cs)
    obtain ⟨d₁', hs', hinv, -, hframe, -⟩ :=
      save_checkpoint_inv c.st c.fname c.best k d L hL hcg
    rw [hs'] at hs
    have hd₁ : d₁' = d₁ := Except.ok.inj hs
    rw [hd₁] at hinv hframe
    have hbu : bestName ∉ updatedManifest c.fname L := by
      intro hmem
      rcases mem_updatedManifest hmem with h1 | h2
      · exact hcb h1.symm
      · exact hbL h2
    have hbkept : bestName ∉ (updatedManifest c.fname L).take k :=
      fun hm => hbu (List.take_subset k _ hm)
    have hbtail : bestName ∉ (updatedManifest c.fname L).drop k :=
      fun hm => hbu (List.drop_subset k _ hm)
    obtain ⟨L', hL', hbL', hlook⟩ :=
      ih d₁ _ d' (fun c' hc' => hgood c' (List.mem_cons_of_mem _ hc'))
        hinv hbkept hrest
    refine ⟨L', hL', hbL', ?_⟩
    intro hall
    have hc0 : c.best = false := hall c (List.mem_cons_self c cs)
    have h1 : fsLookup d₁ bestName = fsLookup d bestName := by
      refine hframe bestName hbtail (fun h => hcb h.symm)
        bestName_ne_latestCheckpoint ?_
      intro hb; rw [hc0] at hb; cases hb
    rw [hlook (fun c' hc' => hall c' (List.mem_cons_of_mem _ hc')), h1]

end CheckpointStore

namespace CheckpointStore

/-! ### Concrete names used in witnesses and counterexamples -/

def nmA : Name := "a".toList

def nmB : Name := "b".toList

def nmC : Name := "c".toList

def nmX : Name := "x".toList

def nmY : Name := "y".toList

def nmZ : Name := "z".toList

/-! ### Claim theorems -/

/-- C5: `get_previous_checkpoints` (spec name `list_checkpoints`) on a path
that is not a directory fails with the assertion-style precondition
violation and never returns a list of checkpoints; no directory contents
are touched since none are available to the failing branch. -/
theorem get_previous_checkpoints_not_dir (α : Type) :
    get_previous_checkpoints (α := α) none = .error .assertionFailed ∧
    ∀ r : List Name × Dir α, get_previous_checkpoints (α := α) none ≠ .ok r :=
  ⟨rfl, fun _ h => Except.noConfusion h⟩

theorem get_previous_checkpoints_not_dir_inst :
    get_previous_checkpoints (α := Nat) none = .error .assertionFailed ∧
    ∀ r : List Name × Dir Nat, get_previous_checkpoints (α := Nat) none ≠ .ok r :=
  get_previous_checkpoints_not_dir Nat

/-- C6: `get_previous_checkpoints` (spec name `list_checkpoints`) on an
existing directory without a manifest file creates an empty manifest,
returns the empty sequence, and raises no error. -/
theorem get_previous_checkpoints_missing_manifest (α : Type) (d : Dir α)
    (h : fsLookup d latestCheckpoint = none) :
    get_previous_checkpoints (some d) =
      .ok ([], fsWrite d latestCheckpoint (.text [])) ∧
    fsLookup (fsWrite d latestCheckpoint (.text [])) latestCheckpoint =
      some (.text []) :=
  ⟨get_previous_checkpoints_of_absent d h, fsLookup_fsWrite_self d _ _⟩

theorem get_previous_checkpoints_missing_manifest_inst :
    get_previous_checkpoints (some ([] : Dir Nat)) =
      .ok ([], fsWrite [] latestCheckpoint (.text [])) ∧
    fsLookup (fsWrite ([] : Dir Nat) latestCheckpoint (.text []))
      latestCheckpoint = some (.text []) :=
  get_previous_checkpoints_missing_manifest Nat [] rfl

/-- C7: `load_best_checkpoint` (spec name `load_best`) returns the sentinel
`none` when `best.ckpt` does not exist, returns the state stored in
`best.ckpt` when it holds a serialized state, and its result is unaffected
by the manifest file's contents (it never reads the manifest; by its type it
modifies nothing). -/
theorem load_best_checkpoint_contract (α : Type) (d : Dir α) :
    (fsLookup d bestName = none → load_best_checkpoint d = .ok none) ∧
    (∀ st : α, fsLookup d bestName = some (.blob st) →
      load_best_checkpoint d = .ok (some st)) ∧
    (∀ s, load_best_checkpoint (fsWrite d latestCheckpoint (.text s)) =
      load_best_checkpoint d) := by
  refine ⟨?_, ?_, ?_⟩
  · intro h
    unfold load_best_checkpoint
    rw [h]
  · intro st h
    unfold load_best_checkpoint
    rw [h]
  · intro s
    unfold load_best_checkpoint
    rw [fsLookup_fsWrite_ne _ _ (fun h => bestName_ne_latestCheckpoint h.symm)]

theorem load_best_checkpoint_contract_inst :
    load_best_checkpoint [(bestName, File.blob (5:Nat))] = .ok (some 5) :=
  (load_best_checkpoint_contract Nat [(bestName, File.blob 5)]).2.1 5 rfl

end CheckpointStore

namespace CheckpointStore

/-- The starting directory of the C2 counterexample: manifest `b\na`
(as produced by earlier saves of "a" then "b"), with both files present. -/
def c2Dir : Dir Nat :=
  [(latestCheckpoint, .text ("b\na".toList)), (nmA, .blob 0), (nmB, .blob 1)]

/-- C2 is false as stated: the source guards the prepend with membership
anywhere in the manifest (`if filepath.name not in previous_checkpoints`),
not with being the first entry.  Saving "a" over the manifest `["b", "a"]`
(where "a" is second, not first) does not prepend "a"; the manifest stays
`["b", "a"]` instead of the claimed `["a", "b", "a"]`. -/
theorem save_skips_prepend_for_nonfirst_member :
    manifestNames c2Dir = some [nmB, nmA] ∧
    nmA ∈ [nmB, nmA] ∧
    [nmB, nmA].head? ≠ some nmA ∧
    save_checkpoint (7:Nat) nmA false 5 c2Dir =
      .ok [(latestCheckpoint, .text ("b\na".toList)), (nmA, .blob 7), (nmB, .blob 1)] ∧
    manifestNames [(latestCheckpoint, File.text ("b\na".toList)),
      (nmA, File.blob (7:Nat)), (nmB, File.blob 1)] = some [nmB, nmA] ∧
    ([nmB, nmA] : List Name) ≠ nmA :: [nmB, nmA] :=
  ⟨by decide, by decide, by decide, rfl, by decide, by decide⟩

/-- C2 (amended): during `save_checkpoint` the saved filename is prepended
to the manifest if and only if it does not occur anywhere in the manifest
read from `latest_checkpoint`; when it occurs at any position (first or
not) the manifest order is left unchanged.  The manifest written back is
the first `max_keep` entries of the resulting list. -/
theorem save_prepends_iff_absent (α : Type) (st : α) (f : Name) (b : Bool)
    (k : Nat) (d : Dir α) (L : List Name)
    (hman : fsLookup d latestCheckpoint = some (.text (joinNl L)))
    (hgood : ∀ n ∈ L, GoodName n) (hf : GoodName f) :
    ∃ d', save_checkpoint st f b k d = .ok d' ∧
      manifestNames d' = some ((updatedManifest f L).take k) ∧
      (f ∈ L → updatedManifest f L = L) ∧
      (f ∉ L → updatedManifest f L = f :: L) := by
  obtain ⟨d', hsave, hlatest, -, -, -, -⟩ :=
    save_checkpoint_spec st f b k d L (Or.inr hman) hgood hf
  refine ⟨d', hsave, ?_, ?_, ?_⟩
  · unfold manifestNames
    rw [hlatest]
    show some (readStrippedLines (joinNl ((updatedManifest f L).take k))) = _
    rw [readStrippedLines_joinNl _
      (fun n hn => good_updatedManifest hf hgood n (List.take_subset k _ hn))]
  · intro hmem
    unfold updatedManifest
    rw [if_pos hmem]
  · intro hmem
    unfold updatedManifest
    rw [if_neg hmem]

theorem save_prepends_iff_absent_inst :
    ∃ d', save_checkpoint (3:Nat) nmB false 2
        [(latestCheckpoint, File.text (joinNl [nmA])), (nmA, File.blob 0)] = .ok d' ∧
      manifestNames d' = some ((updatedManifest nmB [nmA]).take 2) ∧
      (nmB ∈ [nmA] → updatedManifest nmB [nmA] = [nmA]) ∧
      (nmB ∉ [nmA] → updatedManifest nmB [nmA] = nmB :: [nmA]) :=
  save_prepends_iff_absent Nat 3 nmB false 2
    [(latestCheckpoint, File.text (joinNl [nmA])), (nmA, File.blob 0)] [nmA]
    rfl (by decide) (by decide)

/-- C4: during `save_checkpoint` with positive `max_keep`, every manifest
entry beyond the first `max_keep` entries of the updated manifest names a
file that is deleted if present and silently skipped if absent: the call
succeeds (no error even when some tail files are already missing) and
afterwards no file named by a dropped tail entry exists.  The manifest is
assumed to consist of well-behaved filenames, as produced by saves of such
filenames. -/
theorem save_prunes_dropped_tail (α : Type) (st : α) (f : Name) (b : Bool)
    (k : Nat) (d : Dir α) (L : List Name) (_hk : 1 ≤ k)
    (hman : fsLookup d latestCheckpoint = some (.text (joinNl L)))
    (hgood : ∀ n ∈ L, GoodName n) (hf : GoodName f) :
    ∃ d', save_checkpoint st f b k d = .ok d' ∧
      ∀ n ∈ (updatedManifest f L).drop k, fsExists d' n = false := by
  obtain ⟨d', hsave, -, htail, -, -, -⟩ :=
    save_checkpoint_spec st f b k d L (Or.inr hman) hgood hf
  exact ⟨d', hsave, htail⟩

/-- The C4 witness directory: the manifest lists "a" and "b" but only "a"
exists on disk, so pruning both exercises deletion and the silent skip. -/
def c4Dir : Dir Nat :=
  [(latestCheckpoint, .text (joinNl [nmA, nmB])), (nmA, .blob 0)]

theorem save_prunes_dropped_tail_inst :
    ∃ d', save_checkpoint (5:Nat) nmC false 1 c4Dir = .ok d' ∧
      ∀ n ∈ (updatedManifest nmC [nmA, nmB]).drop 1, fsExists d' n = false :=
  save_prunes_dropped_tail Nat 5 nmC false 1 c4Dir [nmA, nmB]
    (by decide) rfl (by decide) (by decide)

/-- C9 (frame property): `save_checkpoint` deletes only files named in the
dropped manifest tail.  Every file present before the call whose name is
not among the entries beyond the first `max_keep` of the updated manifest
still exists after the call. -/
theorem save_preserves_other_files (α : Type) (st : α) (f : Name) (b : Bool)
    (k : Nat) (d : Dir α) (L : List Name)
    (hman : fsLookup d latestCheckpoint = some (.text (joinNl L)))
    (hgood : ∀ n ∈ L, GoodName n) (hf : GoodName f) :
    ∃ d', save_checkpoint st f b k d = .ok d' ∧
      ∀ n, fsExists d n = true → n ∉ (updatedManifest f L).drop k →
        fsExists d' n = true := by
  obtain ⟨d', hsave, hlatest, -, hfname, hbest, hframe⟩ :=
    save_checkpoint_spec st f b k d L (Or.inr hman) hgood hf
  refine ⟨d', hsave, ?_⟩
  intro n hex hnt
  by_cases hnl : n = latestCheckpoint
  · subst hnl
    rw [fsExists_eq_isSome, hlatest]
    rfl
  · by_cases hnf : n = f
    · subst hnf
      rw [fsExists_eq_isSome, hfname hnt]
      rfl
    · by_cases hnb : b = true ∧ n = bestName
      · obtain ⟨hb, hnb'⟩ := hnb
        subst hnb'
        rw [fsExists_eq_isSome, hbest hb hnt]
        rfl
      · have hcond : b = true → n ≠ bestName := fun hb h => hnb ⟨hb, h⟩
        rw [fsExists_eq_isSome, hframe n hnt hnf hnl hcond,
          ← fsExists_eq_isSome]
        exact hex

/-- The C9 witness directory: manifest `["a"]`, files "a" and an unrelated
file "z". -/
def c9Dir : Dir Nat :=
  [(latestCheckpoint, .text (joinNl [nmA])), (nmA, .blob 0), (nmZ, .blob 9)]

theorem save_preserves_other_files_inst :
    ∃ d', save_checkpoint (5:Nat) nmC true 1 c9Dir = .ok d' ∧
      ∀ n, fsExists c9Dir n = true → n ∉ (updatedManifest nmC [nmA]).drop 1 →
        fsExists d' n = true :=
  save_preserves_other_files Nat 5 nmC true 1 c9Dir [nmA]
    rfl (by decide) (by decide)

end CheckpointStore

namespace CheckpointStore

/-- The empty directory satisfies the store invariant with an empty
manifest list, for any bound. -/
theorem dirInvL_nil {α : Type} (k : Nat) : DirInvL k ([] : Dir α) [] :=
  ⟨Or.inl ⟨rfl, rfl⟩, Nat.zero_le k, List.nodup_nil,
    fun n hn => absurd hn (List.not_mem_nil n),
    fun n hn => absurd hn (List.not_mem_nil n)⟩

/-- A filename containing a newline, legal for the filesystem but fatal for
the newline-separated manifest format. -/
def newlineName : Name := "a\nb".toList

/-- C1 is false as stated: one save call (a sequence of length one, with
`max_keep = 2`) of the filename `"a\nb"` writes the manifest text `a\nb`,
whose entries — as the store itself reads them back — are `"a"` and `"b"`,
and neither names an existing file (only `"a\nb"` exists). -/
theorem save_manifest_lists_missing_file :
    save_checkpoint (0:Nat) newlineName false 2 [] =
      .ok [(latestCheckpoint, File.text newlineName), (newlineName, File.blob 0)] ∧
    manifestNames [(latestCheckpoint, File.text newlineName),
      (newlineName, File.blob (0:Nat))] = some [nmA, nmB] ∧
    get_previous_checkpoints (some [(latestCheckpoint, File.text newlineName),
        (newlineName, File.blob (0:Nat))]) =
      .ok ([nmA, nmB],
        [(latestCheckpoint, File.text newlineName), (newlineName, File.blob 0)]) ∧
    fsExists [(latestCheckpoint, File.text newlineName),
      (newlineName, File.blob (0:Nat))] nmA = false ∧
    fsExists [(latestCheckpoint, File.text newlineName),
      (newlineName, File.blob (0:Nat))] nmB = false :=
  ⟨rfl, by decide, rfl, by decide, by decide⟩

/-- C1 (amended): for every sequence of `save_checkpoint` calls with a fixed
positive `max_keep` starting from an empty directory, in which every saved
filename is well-behaved (nonempty, newline-free, unchanged by `strip`, and
not `"latest_checkpoint"` itself), after each call the manifest has at most
`max_keep` entries and every entry names an existing file. -/
theorem save_manifest_invariant (α : Type) (k : Nat) (d d' : Dir α)
    (st : α) (f : Name) (b : Bool) (_hk : 1 ≤ k)
    (hR : Reachable α k d) (hf : GoodName f)
    (hs : save_checkpoint st f b k d = .ok d') :
    ∃ L', manifestNames d' = some L' ∧ L'.length ≤ k ∧
      ∀ n ∈ L', fsExists d' n = true := by
  obtain ⟨L, hL⟩ := reachable_dirInvL hR
  obtain ⟨d'', hs'', hinv, hlatest, -, -⟩ := save_checkpoint_inv st f b k d L hL hf
  rw [hs''] at hs
  obtain rfl : d'' = d' := Except.ok.inj hs
  refine ⟨(updatedManifest f L).take k, ?_, hinv.len, hinv.files⟩
  unfold manifestNames
  rw [hlatest]
  show some (readStrippedLines (joinNl ((updatedManifest f L).take k))) = _
  rw [readStrippedLines_joinNl _ hinv.good]

theorem save_manifest_invariant_inst :
    ∃ L', manifestNames [(latestCheckpoint, File.text nmA),
        (nmA, File.blob (0:Nat))] = some L' ∧ L'.length ≤ 1 ∧
      ∀ n ∈ L', fsExists [(latestCheckpoint, File.text nmA),
        (nmA, File.blob (0:Nat))] n = true :=
  save_manifest_invariant Nat 1 [] [(latestCheckpoint, File.text nmA),
      (nmA, File.blob 0)] 0 nmA false
    (by decide) Reachable.init (by decide) rfl

/-- The C3 counterexample sequence: save "a", save "b", then save "a" twice
in a row, all with `max_keep = 2`. -/
def c3Calls : List (SaveCall Nat) :=
  [⟨0, nmA, false⟩, ⟨1, nmB, false⟩, ⟨2, nmA, false⟩, ⟨3, nmA, false⟩]

/-- C3 is false as stated: after saving "a" then "b" (manifest `["b","a"]`),
two consecutive saves of "a" leave the manifest `["b","a"]`; the filename
"a" occurs exactly once, but in second position, not first. -/
theorem save_twice_not_first :
    c3Calls.drop 2 = [⟨2, nmA, false⟩, ⟨3, nmA, false⟩] ∧
    runSaves 2 c3Calls [] =
      .ok [(latestCheckpoint, File.text ("b\na".toList)),
        (nmA, File.blob 3), (nmB, File.blob 1)] ∧
    manifestNames [(latestCheckpoint, File.text ("b\na".toList)),
      (nmA, File.blob (3:Nat)), (nmB, File.blob 1)] = some [nmB, nmA] ∧
    [nmB, nmA].count nmA = 1 ∧
    [nmB, nmA].head? ≠ some nmA :=
  ⟨rfl, rfl, by decide, by decide, by decide⟩

/-- C3 (amended): starting from a directory satisfying the store invariant
whose manifest does not yet contain the filename, two consecutive saves of
the same well-behaved filename with positive `max_keep` both succeed, leave
the manifest identical after the two calls, and the filename occurs in it
exactly once, in first position.  (When the filename is already present at
a non-first position, both saves leave the manifest unchanged instead.) -/
theorem save_twice_fresh_name (α : Type) (st₁ st₂ : α) (f : Name)
    (b₁ b₂ : Bool) (k : Nat) (d : Dir α) (L : List Name)
    (hk : 1 ≤ k) (hL : DirInvL k d L) (hf : GoodName f) (hfL : f ∉ L) :
    ∃ d₁ d₂, save_checkpoint st₁ f b₁ k d = .ok d₁ ∧
      save_checkpoint st₂ f b₂ k d₁ = .ok d₂ ∧
      manifestNames d₁ = some ((f :: L).take k) ∧
      manifestNames d₂ = some ((f :: L).take k) ∧
      ((f :: L).take k).head? = some f ∧
      ((f :: L).take k).count f = 1 := by
  have hupd : updatedManifest f L = f :: L := by
    unfold updatedManifest
    rw [if_neg hfL]
  obtain ⟨d₁, hs₁, hinv₁, hlat₁, -, -⟩ := save_checkpoint_inv st₁ f b₁ k d L hL hf
  rw [hupd] at hinv₁ hlat₁
  have hfkept : f ∈ (f :: L).take k := by
    obtain ⟨k', rfl⟩ : ∃ k', k = k' + 1 :=
      ⟨k - 1, (Nat.succ_pred_eq_of_pos hk).symm⟩
    rw [List.take_succ_cons]
    exact List.mem_cons_self f _
  have hupd₂ : updatedManifest f ((f :: L).take k) = (f :: L).take k := by
    unfold updatedManifest
    rw [if_pos hfkept]
  obtain ⟨d₂, hs₂, hinv₂, hlat₂, -, -⟩ :=
    save_checkpoint_inv st₂ f b₂ k d₁ _ hinv₁ hf
  rw [hupd₂, List.take_take, Nat.min_self] at hlat₂
  have hcount : ((f :: L).take k).count f = 1 := by
    obtain ⟨k', rfl⟩ : ∃ k', k = k' + 1 :=
      ⟨k - 1, (Nat.succ_pred_eq_of_pos hk).symm⟩
    rw [List.take_succ_cons, List.count_cons_self,
      List.count_eq_zero.mpr (fun h => hfL (List.take_subset k' L h))]
  have hhead : ((f :: L).take k).head? = some f := by
    obtain ⟨k', rfl⟩ : ∃ k', k = k' + 1 :=
      ⟨k - 1, (Nat.succ_pred_eq_of_pos hk).symm⟩
    rw [List.take_succ_cons]
    rfl
  refine ⟨d₁, d₂, hs₁, hs₂, ?_, ?_, hhead, hcount⟩
  · unfold manifestNames
    rw [hlat₁]
    show some (readStrippedLines (joinNl ((f :: L).take k))) = _
    rw [readStrippedLines_joinNl _ hinv₁.good]
  · unfold manifestNames
    rw [hlat₂]
    show some (readStrippedLines (joinNl ((f :: L).take k))) = _
    rw [readStrippedLines_joinNl _ hinv₁.good]

theorem save_twice_fresh_name_inst :
    ∃ d₁ d₂, save_checkpoint (0:Nat) nmA false 1 [] = .ok d₁ ∧
      save_checkpoint (1:Nat) nmA false 1 d₁ = .ok d₂ ∧
      manifestNames d₁ = some (([nmA] : List Name).take 1) ∧
      manifestNames d₂ = some (([nmA] : List Name).take 1) ∧
      (([nmA] : List Name).take 1).head? = some nmA ∧
      (([nmA] : List Name).take 1).count nmA = 1 :=
  save_twice_fresh_name Nat 0 1 nmA false false 1 [] []
    (by decide) (dirInvL_nil 1) (by decide) (by decide)

/-- The C8 counterexample sequence: an `is_best=true` save of "x" with state
10, then an `is_best=false` save whose filename is literally `best.ckpt`
with state 11, `max_keep = 1`. -/
def c8Calls : List (SaveCall Nat) := [⟨10, nmX, true⟩, ⟨11, bestName, false⟩]

/-- C8 is false as stated: a later `is_best=false` save is not always
irrelevant to `load_best_checkpoint` — when its filename is `best.ckpt`,
`torch.save` overwrites the best marker, and `load_best_checkpoint` returns
the newer state 11 instead of the most recent `is_best=true` state 10. -/
theorem plain_save_to_best_filename_changes_load_best :
    c8Calls.map SaveCall.best = [true, false] ∧
    runSaves 1 c8Calls [] =
      .ok [(latestCheckpoint, File.text bestName), (bestName, File.blob 11)] ∧
    load_best_checkpoint [(latestCheckpoint, File.text bestName),
      (bestName, File.blob (11:Nat))] = .ok (some 11) ∧
    some (11:Nat) ≠ some 10 :=
  ⟨rfl, rfl, rfl, by decide⟩

/-- C8 (amended): in a sequence of saves with positive `max_keep` on an
invariant directory whose manifest does not mention `best.ckpt`, where all
saved filenames are well-behaved and none is `best.ckpt` itself, after a
save with `is_best=true` followed only by saves with `is_best=false`,
`load_best_checkpoint` returns exactly the state of that `is_best=true`
save, regardless of rotation pruning. -/
theorem load_best_tracks_latest_best_save (α : Type) (k : Nat)
    (pre post : List (SaveCall α)) (c₀ : SaveCall α) (d d' : Dir α)
    (L : List Name) (_hk : 1 ≤ k)
    (hgood : ∀ c ∈ pre ++ c₀ :: post, GoodName c.fname ∧ c.fname ≠ bestName)
    (hL : DirInvL k d L) (hbL : bestName ∉ L)
    (hc : c₀.best = true) (hpost : ∀ c ∈ post, c.best = false)
    (hrun : runSaves k (pre ++ c₀ :: post) d = .ok d') :
    load_best_checkpoint d' = .ok (some c₀.st) := by
  obtain ⟨dm, hpre, hrest⟩ := runSaves_append_inv hrun
  obtain ⟨Lm, hLm, hbLm, -⟩ := runSaves_keep k pre d L dm
    (fun c hcm => hgood c (List.mem_append_left _ hcm)) hL hbL hpre
  obtain ⟨d₀, hs₀, hrest₀⟩ := runSaves_cons_inv hrest
  obtain ⟨hc₀g, hc₀b⟩ :=
    hgood c₀ (List.mem_append_right _ (List.mem_cons_self _ _))
  obtain ⟨d₀', hs₀', hinv₀, -, -, hbest₀⟩ :=
    save_checkpoint_inv c₀.st c₀.fname c₀.best k dm Lm hLm hc₀g
  rw [hs₀'] at hs₀
  have hd₀ : d₀' = d₀ := Except.ok.inj hs₀
  rw [hd₀] at hinv₀ hbest₀
  have hbu : bestName ∉ updatedManifest c₀.fname Lm := by
    intro hmem
    rcases mem_updatedManifest hmem with h1 | h2
    · exact hc₀b h1.symm
    · exact hbLm h2
  have hlook₀ : fsLookup d₀ bestName = some (.blob c₀.st) :=
    hbest₀ hc (fun hm => hbu (List.drop_subset k _ hm))
  obtain ⟨L', hL', hbL', hlook⟩ := runSaves_keep k post d₀ _ d'
    (fun c hcm => hgood c (List.mem_append_right _ (List.mem_cons_of_mem _ hcm)))
    hinv₀ (fun hm => hbu (List.take_subset k _ hm)) hrest₀
  have hfin : fsLookup d' bestName = some (.blob c₀.st) := by
    rw [hlook hpost, hlook₀]
  unfold load_best_checkpoint
  rw [hfin]

theorem load_best_tracks_latest_best_save_inst :
    load_best_checkpoint [(latestCheckpoint, File.text nmY),
      (nmY, File.blob 11), (bestName, File.blob (10:Nat))] = .ok (some 10) :=
  load_best_tracks_latest_best_save Nat 1 [] [⟨11, nmY, false⟩] ⟨10, nmX, true⟩
    [] [(latestCheckpoint, File.text nmY), (nmY, File.blob 11),
      (bestName, File.blob 10)] []
    (by decide) (by decide) (dirInvL_nil 1) (by decide) rfl (by decide) rfl

/-- The C10 sequence: an `is_best=true` save of "x", then a plain save whose
filename is literally `best.ckpt`, then a plain save of "y", `max_keep=1`. -/
def c10Calls : List (SaveCall Nat) :=
  [⟨9, nmX, true⟩, ⟨10, bestName, false⟩, ⟨11, nmY, false⟩]

/-- C10: the reserved filename `best.ckpt` gets no special treatment from
`save_checkpoint`: saved with `is_best=false` it enters the rotation
manifest, a later save prunes it off the retention window and deletes the
file, and `load_best_checkpoint` then returns the absent sentinel even
though an `is_best=true` save occurred earlier in the sequence. -/
theorem bestName_gets_no_special_treatment :
    c10Calls.map SaveCall.best = [true, false, false] ∧
    runSaves 1 (c10Calls.take 2) [] =
      .ok [(latestCheckpoint, File.text bestName), (bestName, File.blob 10)] ∧
    manifestNames [(latestCheckpoint, File.text bestName),
      (bestName, File.blob (10:Nat))] = some [bestName] ∧
    runSaves 1 c10Calls [] =
      .ok [(latestCheckpoint, File.text nmY), (nmY, File.blob 11)] ∧
    fsExists [(latestCheckpoint, File.text nmY),
      (nmY, File.blob (11:Nat))] bestName = false ∧
    load_best_checkpoint [(latestCheckpoint, File.text nmY),
      (nmY, File.blob (11:Nat))] = .ok none :=
  ⟨rfl, rfl, by decide, rfl, by decide, rfl⟩

end CheckpointStore
